import Mathlib

/-!
# Verification of the day-layout engine of `src/js/Calendar.js`

This file gives a shallow embedding of the core layout algorithm of the
calendar-canvas repository (`layOutDay`, `checkLeft`, `registerCollision`,
`sortByDuration` in `src/js/Calendar.js`) and proves/refutes the frozen
claims about it.

Modelling conventions:

* A JS event object is the record `Event`; all numeric fields are `Int`
  (the inputs in all claims are integers and the algorithm only performs
  integer-valued arithmetic on them: `+`, `-`, `*`, `Math.max`, and
  `parseInt(600/columns)`, which on the reachable values `columns ≥ 1` is
  integer division).
* The mutable array of events is a `List Event`; in-place mutation of
  `events[i]` becomes `updateAt s i f`.
* `checkLeft` reads the module-level binding `events` (not the argument of
  `layOutDay`).  The main model `layOutDay` covers the configuration where
  that binding aliases the array being laid out (the configuration the
  algorithm is designed for, and the one produced by `Calendar`, which
  stores the very array returned by `layOutDay` into the global).  A second
  model `layOutDayEmptyGlobal` covers the same source code when the
  module-level binding holds an empty array; it is used to settle the
  determinism claim about independence from program state.
* The recursion of `checkLeft` is embedded with an explicit recursion
  budget (`fuel`).  Every recursive call `checkLeft(events[i], i)` of the
  source targets a strictly smaller index `i < index` (proved below as
  `colliders_lt_scanStop` / `scanStop_le_self`), so a budget equal to the
  index of the scanned event is exact; `layOutDay` invokes
  `checkLeftFuel e st e` precisely as the source invokes
  `checkLeft(events[e], e)`.
* The scan bound and the candidate tests of `checkLeft` read only the
  `id`/`start`/`end` fields of the scanned array.  Those fields are never
  written after initialization (no statement of the algorithm assigns
  them), which the model makes syntactically evident by computing the
  candidate list `colliders` from the projection `coreOf` of the state;
  the `core` field of `checkLeftFuel_spec` below proves that the
  projection is invariant under the whole recursion, so reading the
  candidates at frame entry agrees with the source's re-reading of the
  live array at every loop step.
-/

/-- A calendar event object: input fields `id`, `start`, `end` and the
annotation fields written by `layOutDay` (lines 33–42 of the source).
`end` is written `«end»` because it is a Lean keyword. -/
structure Event where
  id : Int
  start : Int
  «end» : Int
  left : Int := 0
  top : Int := 0
  width : Int := 0
  duration : Int := 0
  overlap : Int := 0
  position : Int := 0
  collisions : List Nat := []
  columns : Int := 0
deriving Repr, DecidableEq, Inhabited

/-- The immutable core of an event: the fields that `layOutDay` and
`checkLeft` only ever read (`id`, `start`, `end`). -/
structure EventCore where
  id : Int
  start : Int
  «end» : Int
deriving Repr, DecidableEq, Inhabited

/-- Projection of an event onto its immutable core. -/
def coreOf (ev : Event) : EventCore :=
  { id := ev.id, start := ev.start, «end» := ev.«end» }

/-- Reading `events[i]` (out-of-range reads never occur on the executions
modelled; the default is only there to make the function total). -/
def eventAt (s : List Event) (i : Nat) : Event :=
  s.getD i default

/-- In-place mutation of `events[i]`. -/
def updateAt : List Event → Nat → (Event → Event) → List Event
  | [], _, _ => []
  | ev :: rest, 0, f => f ev :: rest
  | ev :: rest, n + 1, f => ev :: updateAt rest n f

/-- The initialization performed on every event by the first loop of
`layOutDay` (source lines 33–42). -/
def initEvent (ev : Event) : Event :=
  { ev with
    left := 10
    top := ev.start
    width := 200
    duration := ev.«end» - ev.start
    overlap := 0
    position := 0
    collisions := []
    columns := 1 }

/-- `_event.registerCollision(id)` (source lines 56–67): append `id` to
the `collisions` array unless it is already present. -/
def registerCollision (ev : Event) (id : Nat) : Event :=
  if id ∈ ev.collisions then ev else { ev with collisions := ev.collisions ++ [id] }

/-- The comparator `sortByDuration(e1, e2)` (source lines 277–282). -/
def sortByDuration (e1 e2 : Event) : Int :=
  let y := e1.«end» - e1.start
  let x := e2.«end» - e2.start
  if x < y then -1 else if x > y then 1 else 0

/-- One insertion step of a stable sort consistent with the comparator
`sortByDuration`: `a` is placed before the first element `b` that the
comparator does not require to precede `a` (`sortByDuration a b ≤ 0`). -/
def insertByDuration (a : Event) : List Event → List Event
  | [] => [a]
  | b :: l => if sortByDuration a b ≤ 0 then a :: b :: l else b :: insertByDuration a l

/-- Model of `events.sort(sortByDuration)` (source line 69).
`Array.prototype.sort` is required by the language standard to be stable,
and a stable sort consistent with a total transitive comparator is unique
as a function of the input list, so stable insertion sort is a faithful
model of it. -/
def jsSortByDuration : List Event → List Event
  | [] => []
  | a :: l => insertByDuration a (jsSortByDuration l)

/-- The collision test of `checkLeft` (source line 112):
`event.start < events[i].end && event.end > events[i].start`. -/
def collides (a b : EventCore) : Bool :=
  a.start < b.«end» && a.«end» > b.start

/-- The index at which the scan loop of `checkLeft(event, index)` breaks:
the first `i` with `events[i].id == event.id` (source line 111).
`C` is the core projection of the scanned array. -/
def scanStop (C : List EventCore) (index : Nat) : Nat :=
  C.findIdx (fun c => c.id == (C.getD index default).id)

/-- The candidates actually processed by the scan loop of
`checkLeft(event, index)`: the indices before the break point whose
intervals properly overlap the scanned event (source lines 110–112).
These depend only on `id`/`start`/`end` fields, which the algorithm never
writes after initialization. -/
def colliders (C : List EventCore) (index : Nat) : List Nat :=
  (List.range (scanStop C index)).filter
    (fun i => collides (C.getD index default) (C.getD i default))

/-- `checkLeft(event, index)` (source lines 109–122) where `event` is
`events[index]` of the scanned array `s` — which is how every call of the
source, from `layOutDay` (line 72) and from the recursion itself
(line 115), is made.  The body processes each colliding candidate `i` in
scan order: it registers `i` with the scanned event, recurses into the
candidate, overwrites the scanned event's `position` with the result plus
one, and registers the scanned event back with the candidate
(lines 113–116); finally it returns the scanned event's current
`position` (line 121).  `fuel` bounds the recursion depth; a budget equal
to `index` is exact because every recursive call strictly decreases the
index. -/
def checkLeftFuel : Nat → List Event → Nat → List Event × Int
  | 0, s, index => (s, (eventAt s index).position)
  | fuel + 1, s, index =>
    let s' := (colliders (s.map coreOf) index).foldl
      (fun st i =>
        let st1 := updateAt st index (fun ev => registerCollision ev i)
        let r := checkLeftFuel fuel st1 i
        let st2 := updateAt r.1 index (fun ev => { ev with position := r.2 + 1 })
        updateAt st2 i (fun ev => registerCollision ev index)) s
    (s', (eventAt s' index).position)

/-- One iteration of the position-resolution loop of `layOutDay`
(source lines 70–75): run the recursive collision check, store its result
in `position`, then collapse `position` to `0` when it exceeds `1` while
fewer than two collisions are registered. -/
def pass2Step (st : List Event) (e : Nat) : List Event :=
  let r := checkLeftFuel e st e
  let st1 := updateAt r.1 e (fun ev => { ev with position := r.2 })
  if 1 < (eventAt st1 e).position ∧ (eventAt st1 e).collisions.length < 2 then
    updateAt st1 e (fun ev => { ev with position := 0 })
  else st1

/-- One iteration of the inner loop of the geometry pass (source
lines 84–88), for one registered collision partner `c` of the event at
`e`: fold the partner's `position + 1` into this event's `columns`
(line 86), then overwrite the partner's `columns` with the value just
computed (line 87). -/
def colStep (e : Nat) (st : List Event) (c : Nat) : List Event :=
  let st1 := updateAt st e
    (fun ev => { ev with columns := max ev.columns ((eventAt st c).position + 1) })
  updateAt st1 c (fun ev => { ev with columns := (eventAt st1 e).columns })

/-- One iteration of the geometry loop of `layOutDay` (source
lines 76–94): walk this event's `collisions` array backwards (the source
loop runs `i` from `collisions.length-1` down to `0`), folding each
partner's `position + 1` into this event's `columns` and overwriting the
partner's `columns` with the running value, then derive `width`
(line 89) and `left` (line 90).  The `collisions` array is read at entry;
the geometry pass never writes `collisions`, so this agrees with the
source's reading of the live array at every loop step. -/
def pass3Step (st : List Event) (e : Nat) : List Event :=
  let st' := ((eventAt st e).collisions.reverse).foldl (colStep e) st
  let st2 := updateAt st' e (fun ev => { ev with width := 600 / ev.columns })
  updateAt st2 e (fun ev => { ev with left := ev.position * ev.width + 10 })

/-- `layOutDay(events)` (source lines 32–97) in the configuration where
the module-level `events` binding aliases the laid-out array: initialize
every event, sort by descending duration, resolve positions with the
recursive collision check, then derive `columns`/`width`/`left`. -/
def layOutDay (events : List Event) : List Event :=
  let sorted := jsSortByDuration (events.map initEvent)
  let s2 := (List.range sorted.length).foldl pass2Step sorted
  (List.range s2.length).foldl pass3Step s2

/-- `checkLeft(event, index)` when the module-level `events` binding holds
an empty array: the scan loop body never runs and the call returns
`event.position` unchanged (source lines 110, 121). -/
def checkLeftEmptyGlobal (ev : Event) : Int :=
  ev.position

/-- One iteration of the position-resolution loop of `layOutDay` when the
module-level `events` binding holds an empty array. -/
def pass2StepEmptyGlobal (st : List Event) (e : Nat) : List Event :=
  let st1 := updateAt st e (fun ev => { ev with position := checkLeftEmptyGlobal ev })
  if 1 < (eventAt st1 e).position ∧ (eventAt st1 e).collisions.length < 2 then
    updateAt st1 e (fun ev => { ev with position := 0 })
  else st1

/-- `layOutDay(events)` executed while the module-level `events` binding
holds an empty array (for example the first call made by the `Calendar`
constructor on a page that initialized `events = []`): same source code,
different module state. -/
def layOutDayEmptyGlobal (events : List Event) : List Event :=
  let sorted := jsSortByDuration (events.map initEvent)
  let s2 := (List.range sorted.length).foldl pass2StepEmptyGlobal sorted
  (List.range s2.length).foldl pass3Step s2

/-! ## Named pieces of `checkLeftFuel` for the proofs -/

/-- The body of the scan loop of `checkLeft` for one colliding candidate
`i` (source lines 113–116), as folded by `checkLeftFuel`. -/
def clStep (fuel index : Nat) (st : List Event) (i : Nat) : List Event :=
  let st1 := updateAt st index (fun ev => registerCollision ev i)
  let r := checkLeftFuel fuel st1 i
  let st2 := updateAt r.1 index (fun ev => { ev with position := r.2 + 1 })
  updateAt st2 i (fun ev => registerCollision ev index)

/-! ## Abbreviations for the mutable per-index state -/

/-- The `collisions` array of `events[x]`. -/
def collsAt (s : List Event) (x : Nat) : List Nat :=
  (eventAt s x).collisions

/-- The `position` field of `events[x]`. -/
def posAt (s : List Event) (x : Nat) : Int :=
  (eventAt s x).position

/-- The `columns` field of `events[x]`. -/
def colsAt (s : List Event) (x : Nat) : Int :=
  (eventAt s x).columns

/-- The invariant of the position-resolution pass that makes the value
returned by `checkLeft` independent of the mutable state: an event whose
scan finds no colliding candidate still has its initial `position = 0`.
`C` is the (invariant) core projection of the state.  (Stated over
`List.range` so that it is decidable on concrete states.) -/
def ZeroInv (C : List EventCore) (s : List Event) : Prop :=
  ∀ i ∈ List.range C.length, colliders C i = [] → posAt s i = 0

instance (C : List EventCore) (s : List Event) : Decidable (ZeroInv C s) := by
  unfold ZeroInv
  infer_instance

/-! ## Basic lemmas about `updateAt` and `eventAt` -/

theorem updateAt_length (s : List Event) (i : Nat) (f : Event → Event) :
    (updateAt s i f).length = s.length := by
  induction s generalizing i with
  | nil => rfl
  | cons ev rest ih =>
    cases i with
    | zero => rfl
    | succ n => simp [updateAt, ih]

theorem updateAt_of_length_le (s : List Event) (i : Nat) (f : Event → Event)
    (h : s.length ≤ i) : updateAt s i f = s := by
  induction s generalizing i with
  | nil => rfl
  | cons ev rest ih =>
    cases i with
    | zero => simp at h
    | succ n =>
      simp only [List.length_cons, Nat.succ_le_succ_iff] at h
      simp [updateAt, ih n h]

theorem eventAt_updateAt_self (s : List Event) (i : Nat) (f : Event → Event)
    (h : i < s.length) : eventAt (updateAt s i f) i = f (eventAt s i) := by
  induction s generalizing i with
  | nil => simp at h
  | cons ev rest ih =>
    cases i with
    | zero => rfl
    | succ n =>
      simp only [List.length_cons, Nat.succ_lt_succ_iff] at h
      simpa [updateAt, eventAt] using ih n h

theorem eventAt_updateAt_ne (s : List Event) (i j : Nat) (f : Event → Event)
    (h : j ≠ i) : eventAt (updateAt s i f) j = eventAt s j := by
  induction s generalizing i j with
  | nil => rfl
  | cons ev rest ih =>
    cases i with
    | zero =>
      cases j with
      | zero => omega
      | succ m => rfl
    | succ n =>
      cases j with
      | zero => rfl
      | succ m => simpa [updateAt, eventAt] using ih n m (by omega)

theorem map_coreOf_updateAt (s : List Event) (i : Nat) (f : Event → Event)
    (hf : ∀ ev, coreOf (f ev) = coreOf ev) :
    (updateAt s i f).map coreOf = s.map coreOf := by
  induction s generalizing i with
  | nil => rfl
  | cons ev rest ih =>
    cases i with
    | zero => simp [updateAt, hf]
    | succ n => simp [updateAt, ih]

theorem coreOf_registerCollision (ev : Event) (n : Nat) :
    coreOf (registerCollision ev n) = coreOf ev := by
  unfold registerCollision
  split <;> rfl

theorem coreOf_eventAt (s : List Event) (x : Nat) :
    coreOf (eventAt s x) = (s.map coreOf).getD x default := by
  have h := List.getD_map s (default : Event) (n := x) coreOf
  rw [eventAt, ← h]
  rfl

theorem length_map_coreOf_eq {s t : List Event}
    (h : s.map coreOf = t.map coreOf) : s.length = t.length := by
  have := congrArg List.length h
  simpa using this

/-! ## The scan bound: `checkLeft` recursion strictly decreases the index -/

theorem findIdx_le_of_getD {α : Type} [Inhabited α] (p : α → Bool) :
    ∀ (l : List α) (i : Nat), i < l.length → p (l.getD i default) = true →
      l.findIdx p ≤ i := by
  intro l
  induction l with
  | nil => intro i h; simp at h
  | cons a rest ih =>
    intro i h hp
    cases i with
    | zero =>
      simp only [List.getD_cons_zero] at hp
      simp [List.findIdx_cons, hp]
    | succ n =>
      by_cases ha : p a
      · simp [List.findIdx_cons, ha]
      · simp only [List.length_cons, Nat.succ_lt_succ_iff] at h
        simp only [List.getD_cons_succ] at hp
        simp only [List.findIdx_cons, ha, cond_false]
        exact Nat.succ_le_succ (ih n h hp)

theorem scanStop_le_self (C : List EventCore) (index : Nat)
    (h : index < C.length) : scanStop C index ≤ index := by
  apply findIdx_le_of_getD
  · exact h
  · simp

theorem mem_colliders {C : List EventCore} {index i : Nat} :
    i ∈ colliders C index ↔
      i < scanStop C index ∧
        collides (C.getD index default) (C.getD i default) = true := by
  simp [colliders, List.mem_filter, List.mem_range]

theorem colliders_lt_scanStop {C : List EventCore} {index i : Nat}
    (h : i ∈ colliders C index) : i < scanStop C index :=
  (mem_colliders.mp h).1

theorem colliders_lt {C : List EventCore} {index i : Nat}
    (hlen : index < C.length) (h : i ∈ colliders C index) : i < index :=
  Nat.lt_of_lt_of_le (colliders_lt_scanStop h) (scanStop_le_self C index hlen)

theorem scanStop_lt_length {C : List EventCore} {index i : Nat}
    (hlen : index < C.length) (h : i ∈ colliders C index) : i < C.length :=
  Nat.lt_trans (colliders_lt hlen h) hlen

/-! ## The static value of the recursive collision search

`checkLeft` overwrites `event.position` once per colliding candidate, so
the value it returns for the event at `index` is `0` when the scan finds
no candidate and otherwise one more than the value recursively resolved
for the *last* candidate in scan order.  That value depends only on the
immutable cores, which `rS` computes directly. -/

theorem getLastD_mem {α : Type} (d : α) :
    ∀ (l : List α), l ≠ [] → l.getLastD d ∈ l := by
  intro l
  induction l with
  | nil => intro h; exact absurd rfl h
  | cons a rest ih =>
    intro _
    cases rest with
    | nil => simp
    | cons b rest2 =>
      have := ih (by simp)
      simpa using Or.inr this

def rS (C : List EventCore) (index : Nat) : Int :=
  if h : index < C.length then
    match hl : colliders C index with
    | [] => 0
    | c :: cs => rS C ((c :: cs).getLastD 0) + 1
  else 0
termination_by index
decreasing_by
  have hm : (c :: cs).getLastD 0 ∈ colliders C index := by
    rw [hl]
    exact getLastD_mem 0 _ (by simp)
  exact colliders_lt h hm

theorem rS_of_colliders_nil {C : List EventCore} {index : Nat}
    (h : colliders C index = []) : rS C index = 0 := by
  rw [rS]
  split
  · split
    · rfl
    · next c cs heq => rw [h] at heq; cases heq
  · rfl

theorem rS_of_colliders_ne_nil {C : List EventCore} {index : Nat}
    (hlen : index < C.length) (h : colliders C index ≠ []) :
    rS C index = rS C ((colliders C index).getLastD 0) + 1 := by
  rw [rS]
  rw [dif_pos hlen]
  split
  · next heq => exact absurd heq h
  · next c cs heq =>
    rw [heq]
/-! ## Properties of the stable sort by descending duration -/

theorem sortByDuration_nonpos (a b : Event) :
    sortByDuration a b ≤ 0 ↔ b.«end» - b.start ≤ a.«end» - a.start := by
  show (if b.«end» - b.start < a.«end» - a.start then (-1 : Int)
    else if b.«end» - b.start > a.«end» - a.start then 1 else 0) ≤ 0 ↔ _
  split_ifs <;> constructor <;> intro <;> omega

theorem mem_insertByDuration {x a : Event} :
    ∀ {l : List Event}, x ∈ insertByDuration a l ↔ x = a ∨ x ∈ l := by
  intro l
  induction l with
  | nil => simp [insertByDuration]
  | cons b rest ih =>
    unfold insertByDuration
    split
    · simp
    · simp only [List.mem_cons, ih]
      tauto

theorem perm_insertByDuration (a : Event) :
    ∀ (l : List Event), (insertByDuration a l).Perm (a :: l) := by
  intro l
  induction l with
  | nil => simp [insertByDuration]
  | cons b rest ih =>
    unfold insertByDuration
    split
    · exact List.Perm.refl _
    · exact (ih.cons b).trans (List.Perm.swap a b rest)

theorem perm_jsSortByDuration : ∀ (l : List Event), (jsSortByDuration l).Perm l := by
  intro l
  induction l with
  | nil => exact List.Perm.refl _
  | cons a rest ih =>
    exact (perm_insertByDuration a (jsSortByDuration rest)).trans (ih.cons a)

theorem pairwise_insertByDuration {a : Event} {l : List Event}
    (h : List.Pairwise (fun x y => y.«end» - y.start ≤ x.«end» - x.start) l) :
    List.Pairwise (fun x y => y.«end» - y.start ≤ x.«end» - x.start)
      (insertByDuration a l) := by
  induction l with
  | nil => simp [insertByDuration]
  | cons b rest ih =>
    rw [List.pairwise_cons] at h
    unfold insertByDuration
    split
    · next hc =>
      rw [sortByDuration_nonpos] at hc
      refine List.Pairwise.cons ?_ (List.Pairwise.cons h.1 h.2)
      intro x hx
      rcases List.mem_cons.mp hx with h1 | h1
      · subst h1; exact hc
      · exact le_trans (h.1 x h1) hc
    · next hc =>
      rw [sortByDuration_nonpos] at hc
      refine List.Pairwise.cons ?_ (ih h.2)
      intro x hx
      rcases mem_insertByDuration.mp hx with h1 | h1
      · subst h1; omega
      · exact h.1 x h1

theorem pairwise_jsSortByDuration : ∀ (l : List Event),
    List.Pairwise (fun x y => y.«end» - y.start ≤ x.«end» - x.start)
      (jsSortByDuration l) := by
  intro l
  induction l with
  | nil => simp [jsSortByDuration]
  | cons a rest ih => exact pairwise_insertByDuration ih

theorem filter_insertByDuration (p : Event → Bool)
    (hp : ∀ x y : Event, p x = true →
      x.«end» - x.start < y.«end» - y.start → p y = false)
    (a : Event) : ∀ (l : List Event),
    List.filter p (insertByDuration a l) =
      if p a then a :: List.filter p l else List.filter p l := by
  intro l
  induction l with
  | nil => cases hpa : p a <;> simp [insertByDuration, List.filter, hpa]
  | cons b rest ih =>
    unfold insertByDuration
    split
    · next hc =>
      by_cases ha : p a
      · simp [List.filter_cons, ha]
      · simp [List.filter_cons, ha]
    · next hc =>
      rw [sortByDuration_nonpos] at hc
      push_neg at hc
      by_cases ha : p a
      · have hb : p b = false := hp a b ha hc
        simp only [List.filter_cons, hb, Bool.false_eq_true, if_false, ih, ha, if_true]
      · simp only [List.filter_cons, ih, ha, Bool.false_eq_true, if_false]

theorem filter_jsSortByDuration (p : Event → Bool)
    (hp : ∀ x y : Event, p x = true →
      x.«end» - x.start < y.«end» - y.start → p y = false) :
    ∀ (l : List Event), List.filter p (jsSortByDuration l) = List.filter p l := by
  intro l
  induction l with
  | nil => rfl
  | cons a rest ih =>
    show List.filter p (insertByDuration a (jsSortByDuration rest)) = _
    rw [filter_insertByDuration p hp a]
    by_cases ha : p a
    · simp [List.filter_cons, ha, ih]
    · simp [List.filter_cons, ha, ih]

/-! ## Lemmas about the primitive state operations -/

theorem mem_registerCollision {ev : Event} {n y : Nat} :
    y ∈ (registerCollision ev n).collisions ↔ y ∈ ev.collisions ∨ y = n := by
  unfold registerCollision
  split
  · next h =>
    constructor
    · exact Or.inl
    · rintro (hy | rfl)
      · exact hy
      · exact h
  · simp

theorem registerCollision_position (ev : Event) (n : Nat) :
    (registerCollision ev n).position = ev.position := by
  unfold registerCollision; split <;> rfl

theorem registerCollision_columns (ev : Event) (n : Nat) :
    (registerCollision ev n).columns = ev.columns := by
  unfold registerCollision; split <;> rfl

theorem registerCollision_length (ev : Event) (n : Nat) :
    ev.collisions.length ≤ (registerCollision ev n).collisions.length := by
  unfold registerCollision
  split
  · exact Nat.le_refl _
  · simp

theorem collides_comm {a b : EventCore} :
    collides a b = true ↔ collides b a = true := by
  simp only [collides, Bool.and_eq_true, decide_eq_true_eq]
  omega

/-- `posAt` is untouched by an update that does not write `position`. -/
theorem posAt_updateAt_of (s : List Event) (k x : Nat) (f : Event → Event)
    (hf : ∀ ev, (f ev).position = ev.position) :
    posAt (updateAt s k f) x = posAt s x := by
  by_cases hx : x = k
  · subst hx
    by_cases hk : x < s.length
    · rw [posAt, eventAt_updateAt_self s x f hk, hf]; rfl
    · rw [updateAt_of_length_le s x f (by omega)]
  · rw [posAt, eventAt_updateAt_ne s k x f hx]; rfl

/-- `collsAt` is untouched by an update that does not write `collisions`. -/
theorem collsAt_updateAt_of (s : List Event) (k x : Nat) (f : Event → Event)
    (hf : ∀ ev, (f ev).collisions = ev.collisions) :
    collsAt (updateAt s k f) x = collsAt s x := by
  by_cases hx : x = k
  · subst hx
    by_cases hk : x < s.length
    · rw [collsAt, eventAt_updateAt_self s x f hk, hf]; rfl
    · rw [updateAt_of_length_le s x f (by omega)]
  · rw [collsAt, eventAt_updateAt_ne s k x f hx]; rfl

/-- `colsAt` is untouched by an update that does not write `columns`. -/
theorem colsAt_updateAt_of (s : List Event) (k x : Nat) (f : Event → Event)
    (hf : ∀ ev, (f ev).columns = ev.columns) :
    colsAt (updateAt s k f) x = colsAt s x := by
  by_cases hx : x = k
  · subst hx
    by_cases hk : x < s.length
    · rw [colsAt, eventAt_updateAt_self s x f hk, hf]; rfl
    · rw [updateAt_of_length_le s x f (by omega)]
  · rw [colsAt, eventAt_updateAt_ne s k x f hx]; rfl

theorem mem_collsAt_updateAt_reg {s : List Event} {k n x y : Nat} :
    y ∈ collsAt (updateAt s k (fun ev => registerCollision ev n)) x ↔
      y ∈ collsAt s x ∨ (x = k ∧ k < s.length ∧ y = n) := by
  by_cases hx : x = k
  · subst hx
    by_cases hk : x < s.length
    · rw [collsAt, eventAt_updateAt_self s x _ hk, mem_registerCollision]
      simp [hk, collsAt]
    · rw [updateAt_of_length_le s x _ (by omega)]
      simp [hk]
  · rw [collsAt, eventAt_updateAt_ne s k x _ hx]
    simp [hx, collsAt]

theorem collsAt_len_updateAt_reg (s : List Event) (k n x : Nat) :
    (collsAt s x).length ≤
      (collsAt (updateAt s k (fun ev => registerCollision ev n)) x).length := by
  by_cases hx : x = k
  · subst hx
    by_cases hk : x < s.length
    · simp only [collsAt]
      rw [eventAt_updateAt_self s x _ hk]
      exact registerCollision_length _ n
    · rw [updateAt_of_length_le s x _ (by omega)]
  · simp only [collsAt]
    rw [eventAt_updateAt_ne s k x _ hx]

theorem posAt_updateAt_setPos_self {s : List Event} {k : Nat} {p : Int}
    (hk : k < s.length) :
    posAt (updateAt s k (fun ev => { ev with position := p })) k = p := by
  rw [posAt, eventAt_updateAt_self s k _ hk]

theorem posAt_updateAt_setPos_ne (s : List Event) (k x : Nat) (p : Int)
    (hx : x ≠ k) :
    posAt (updateAt s k (fun ev => { ev with position := p })) x = posAt s x := by
  rw [posAt, eventAt_updateAt_ne s k x _ hx]; rfl

theorem zeroInv_of_posAt_eq {C : List EventCore} {s t : List Event}
    (h : ∀ x, posAt t x = posAt s x) (hz : ZeroInv C s) : ZeroInv C t := by
  intro i hi hc
  rw [h i]
  exact hz i hi hc

/-! ## The specification of one full `checkLeft` call -/

/-- What one (recursive) call `checkLeft(events[index], index)` does to the
state, relative to the fixed core projection `C`: it preserves cores and
`columns`, only ever grows `collisions` arrays, adds only properly
overlapping pairs to them, adds them symmetrically, keeps the zero
invariant, registers every colliding candidate of the scanned frame with
it, rewrites `position` only at indices it descends into (to the static
value `rS`), and returns the static value of the scanned index. -/
structure CLOut (C : List EventCore) (s s' : List Event) (index : Nat)
    (ret : Int) : Prop where
  core : s'.map coreOf = C
  cols : ∀ x, colsAt s' x = colsAt s x
  mono : ∀ x y, y ∈ collsAt s x → y ∈ collsAt s' x
  lenMono : ∀ x, (collsAt s x).length ≤ (collsAt s' x).length
  newC : ∀ x y, y ∈ collsAt s' x → y ∈ collsAt s x ∨
      (x ≠ y ∧ collides (C.getD x default) (C.getD y default) = true ∧
        x < C.length ∧ y < C.length)
  sym : ∃ R : Nat → Nat → Prop, (∀ a b, R a b → R b a) ∧
      (∀ x y, y ∈ collsAt s' x ↔ (y ∈ collsAt s x ∨ R x y))
  zero : ZeroInv C s'
  regAll : ∀ c ∈ colliders C index, c ∈ collsAt s' index
  pos : ∀ x, posAt s' x = posAt s x ∨
      (colliders C x ≠ [] ∧ posAt s' x = rS C x ∧ x < C.length ∧
        (∀ c ∈ colliders C x, c ∈ collsAt s' x) ∧
        (x = index ∨ ∃ g ∈ collsAt s' x, x < g))
  ret_eq : ret = rS C index

/-- What a partial run of the scan loop of `checkLeft(events[index], index)`
over the remaining candidate list `l` does to the state. -/
structure LoopOut (C : List EventCore) (s s' : List Event) (index : Nat)
    (l : List Nat) : Prop where
  core : s'.map coreOf = C
  cols : ∀ x, colsAt s' x = colsAt s x
  mono : ∀ x y, y ∈ collsAt s x → y ∈ collsAt s' x
  lenMono : ∀ x, (collsAt s x).length ≤ (collsAt s' x).length
  newC : ∀ x y, y ∈ collsAt s' x → y ∈ collsAt s x ∨
      (x ≠ y ∧ collides (C.getD x default) (C.getD y default) = true ∧
        x < C.length ∧ y < C.length)
  sym : ∃ R : Nat → Nat → Prop, (∀ a b, R a b → R b a) ∧
      (∀ x y, y ∈ collsAt s' x ↔ (y ∈ collsAt s x ∨ R x y))
  zero : ZeroInv C s'
  reg : ∀ c ∈ l, c ∈ collsAt s' index ∧ index ∈ collsAt s' c
  posNil : l = [] → s' = s
  posIdx : l ≠ [] → posAt s' index = rS C (l.getLastD 0) + 1
  pos : ∀ x, x ≠ index → (posAt s' x = posAt s x ∨
      (colliders C x ≠ [] ∧ posAt s' x = rS C x ∧ x < C.length ∧
        (∀ c ∈ colliders C x, c ∈ collsAt s' x) ∧
        ∃ g ∈ collsAt s' x, x < g))

theorem getLastD_cons_ne {i d : Nat} {rest : List Nat} (h : rest ≠ []) :
    (i :: rest).getLastD d = rest.getLastD d := by
  cases rest with
  | nil => exact absurd rfl h
  | cons r rs => simp [List.getLastD_cons]

theorem colliders_zero (C : List EventCore) : colliders C 0 = [] := by
  have hs : scanStop C 0 = 0 := by
    cases C with
    | nil => rfl
    | cons c rest => exact Nat.le_zero.mp (scanStop_le_self _ 0 (by simp))
  unfold colliders
  rw [hs]
  rfl

theorem checkLeftFuel_zero_eq (s : List Event) (index : Nat) :
    checkLeftFuel 0 s index = (s, posAt s index) := rfl

theorem checkLeftFuel_succ_eq (fuel : Nat) (s : List Event) (index : Nat) :
    checkLeftFuel (fuel + 1) s index =
      ((colliders (s.map coreOf) index).foldl (clStep fuel index) s,
        posAt ((colliders (s.map coreOf) index).foldl (clStep fuel index) s) index) := rfl

theorem loopOut_nil (C : List EventCore) (s : List Event)
    (index : Nat) (hC : s.map coreOf = C) (hz : ZeroInv C s) :
    LoopOut C s s index [] where
  core := hC
  cols := fun _ => rfl
  mono := fun _ _ h => h
  lenMono := fun _ => Nat.le_refl _
  newC := fun _ _ h => Or.inl h
  sym := ⟨fun _ _ => False, fun _ _ h => h, fun _ _ => by simp⟩
  zero := hz
  reg := fun c hc => absurd hc (List.not_mem_nil c)
  posNil := fun _ => rfl
  posIdx := fun h => absurd rfl h
  pos := fun _ _ => Or.inl rfl

theorem LoopOut.comp {C : List EventCore} {s t u : List Event} {index i : Nat}
    {rest : List Nat} (h1 : LoopOut C s t index [i])
    (h2 : LoopOut C t u index rest) : LoopOut C s u index (i :: rest) where
  core := h2.core
  cols := fun x => (h2.cols x).trans (h1.cols x)
  mono := fun x y h => h2.mono x y (h1.mono x y h)
  lenMono := fun x => Nat.le_trans (h1.lenMono x) (h2.lenMono x)
  newC := by
    intro x y h
    rcases h2.newC x y h with h | h
    · exact h1.newC x y h
    · exact Or.inr h
  sym := by
    obtain ⟨R1, hR1, hiff1⟩ := h1.sym
    obtain ⟨R2, hR2, hiff2⟩ := h2.sym
    refine ⟨fun a b => R1 a b ∨ R2 a b, ?_, ?_⟩
    · rintro a b (h | h)
      · exact Or.inl (hR1 a b h)
      · exact Or.inr (hR2 a b h)
    · intro x y
      rw [hiff2, hiff1]
      tauto
  zero := h2.zero
  reg := by
    intro c hc
    rcases List.mem_cons.mp hc with rfl | hc
    · have := h1.reg c (by simp)
      exact ⟨h2.mono _ _ this.1, h2.mono _ _ this.2⟩
    · exact h2.reg c hc
  posNil := fun h => absurd h (by simp)
  posIdx := by
    intro _
    by_cases hr : rest = []
    · subst hr
      rw [h2.posNil rfl]
      simpa using h1.posIdx (by simp)
    · rw [getLastD_cons_ne hr]
      exact h2.posIdx hr
  pos := by
    intro x hx
    rcases h2.pos x hx with h | h
    · rcases h1.pos x hx with h' | h'
      · exact Or.inl (h.trans h')
      · refine Or.inr ⟨h'.1, h.trans h'.2.1, h'.2.2.1, ?_, ?_⟩
        · intro c hc
          exact h2.mono _ _ (h'.2.2.2.1 c hc)
        · obtain ⟨g, hg, hxg⟩ := h'.2.2.2.2
          exact ⟨g, h2.mono _ _ hg, hxg⟩
    · exact Or.inr h

/-- Effect of processing one colliding candidate `i` in the scan loop of
the frame at `index` (source lines 113–116), assuming the specification
of the recursive call at the smaller budget. -/
theorem clStep_spec (fuel : Nat)
    (IH : ∀ (C : List EventCore) (s : List Event) (idx : Nat), idx ≤ fuel →
      s.map coreOf = C → idx < C.length → ZeroInv C s →
      CLOut C s (checkLeftFuel fuel s idx).1 idx (checkLeftFuel fuel s idx).2)
    (C : List EventCore) (index : Nat) (hidx : index < C.length)
    (i : Nat) (hi : i ∈ colliders C index) (hif : i ≤ fuel)
    (s : List Event) (hC : s.map coreOf = C) (hz : ZeroInv C s) :
    LoopOut C s (clStep fuel index s i) index [i] := by
  have hsl : s.length = C.length := by rw [← hC, List.length_map]
  have hiC : i < C.length := scanStop_lt_length hidx hi
  have hii : i < index := colliders_lt hidx hi
  have hcp : collides (C.getD index default) (C.getD i default) = true :=
    (mem_colliders.mp hi).2
  -- step 1: event.registerCollision(i)
  set a := updateAt s index (fun ev => registerCollision ev i) with ha
  have hCa : a.map coreOf = C :=
    (map_coreOf_updateAt s index _ (fun ev => coreOf_registerCollision ev i)).trans hC
  have posA : ∀ x, posAt a x = posAt s x := fun x =>
    posAt_updateAt_of s index x _ (fun ev => registerCollision_position ev i)
  have colsA : ∀ x, colsAt a x = colsAt s x := fun x =>
    colsAt_updateAt_of s index x _ (fun ev => registerCollision_columns ev i)
  have memA : ∀ x y, y ∈ collsAt a x ↔
      y ∈ collsAt s x ∨ (x = index ∧ index < s.length ∧ y = i) := fun x y =>
    mem_collsAt_updateAt_reg
  have lenA : ∀ x, (collsAt s x).length ≤ (collsAt a x).length := fun x =>
    collsAt_len_updateAt_reg s index i x
  have hza : ZeroInv C a := zeroInv_of_posAt_eq posA hz
  -- step 2: the recursive call checkLeft(events[i], i)
  set r := checkLeftFuel fuel a i with hr
  have CL : CLOut C a r.1 i r.2 := IH C a i hif hCa hiC hza
  have hbl : r.1.length = C.length := by rw [← CL.core, List.length_map]
  -- step 3: event.position = checkLeft(events[i], i) + 1
  set c := updateAt r.1 index (fun ev => { ev with position := r.2 + 1 }) with hc
  have hCc : c.map coreOf = C :=
    (map_coreOf_updateAt r.1 index
      (fun ev => { ev with position := r.2 + 1 }) (fun _ => rfl)).trans CL.core
  have hcl : c.length = C.length := by rw [← hCc, List.length_map]
  have collsC : ∀ x, collsAt c x = collsAt r.1 x := fun x =>
    collsAt_updateAt_of r.1 index x _ (fun _ => rfl)
  have colsC : ∀ x, colsAt c x = colsAt r.1 x := fun x =>
    colsAt_updateAt_of r.1 index x _ (fun _ => rfl)
  have posCself : posAt c index = r.2 + 1 :=
    posAt_updateAt_setPos_self (by omega)
  have posCne : ∀ x, x ≠ index → posAt c x = posAt r.1 x := fun x hx =>
    posAt_updateAt_setPos_ne r.1 index x _ hx
  have hzc : ZeroInv C c := by
    intro j hj hcj
    have hji : j ≠ index := by
      intro h
      subst h
      rw [hcj] at hi
      exact absurd hi (List.not_mem_nil i)
    rw [posCne j hji]
    exact CL.zero j hj hcj
  -- step 4: events[i].registerCollision(index)
  set dd := updateAt c i (fun ev => registerCollision ev index) with hd
  have hCd : dd.map coreOf = C :=
    (map_coreOf_updateAt c i _ (fun ev => coreOf_registerCollision ev index)).trans hCc
  have posD : ∀ x, posAt dd x = posAt c x := fun x =>
    posAt_updateAt_of c i x _ (fun ev => registerCollision_position ev index)
  have colsD : ∀ x, colsAt dd x = colsAt c x := fun x =>
    colsAt_updateAt_of c i x _ (fun ev => registerCollision_columns ev index)
  have memD : ∀ x y, y ∈ collsAt dd x ↔
      y ∈ collsAt c x ∨ (x = i ∧ i < c.length ∧ y = index) := fun x y =>
    mem_collsAt_updateAt_reg
  have lenD : ∀ x, (collsAt c x).length ≤ (collsAt dd x).length := fun x =>
    collsAt_len_updateAt_reg c i index x
  -- membership transport along the four steps
  have liftSB : ∀ x y, y ∈ collsAt s x → y ∈ collsAt r.1 x := fun x y h =>
    CL.mono x y ((memA x y).mpr (Or.inl h))
  have liftBD : ∀ x y, y ∈ collsAt r.1 x → y ∈ collsAt dd x := fun x y h =>
    (memD x y).mpr (Or.inl ((collsC x).symm ▸ h))
  have regIdx : i ∈ collsAt dd index :=
    liftBD index i (CL.mono index i ((memA index i).mpr (Or.inr ⟨rfl, by omega, rfl⟩)))
  have regI : index ∈ collsAt dd i :=
    (memD i index).mpr (Or.inr ⟨rfl, by omega, rfl⟩)
  have hstep : clStep fuel index s i = dd := rfl
  rw [hstep]
  refine ⟨hCd, ?_, ?_, ?_, ?_, ?_, ?_, ?_, ?_, ?_, ?_⟩
  · intro x
    rw [colsD, colsC, CL.cols, colsA]
  · intro x y h
    exact liftBD x y (liftSB x y h)
  · intro x
    calc (collsAt s x).length ≤ (collsAt a x).length := lenA x
      _ ≤ (collsAt r.1 x).length := CL.lenMono x
      _ = (collsAt c x).length := by rw [collsC]
      _ ≤ (collsAt dd x).length := lenD x
  · intro x y h
    rcases (memD x y).mp h with h | ⟨rfl, _, rfl⟩
    · rw [collsC] at h
      rcases CL.newC x y h with h | h
      · rcases (memA x y).mp h with h | ⟨rfl, _, rfl⟩
        · exact Or.inl h
        · exact Or.inr ⟨by omega, hcp, hidx, hiC⟩
      · exact Or.inr h
    · exact Or.inr ⟨by omega, collides_comm.mp hcp, hiC, hidx⟩
  · obtain ⟨Rb, hRb, hiffb⟩ := CL.sym
    refine ⟨fun x y => (x = index ∧ y = i) ∨ (x = i ∧ y = index) ∨ Rb x y, ?_, ?_⟩
    · rintro x y (⟨rfl, rfl⟩ | ⟨rfl, rfl⟩ | h)
      · exact Or.inr (Or.inl ⟨rfl, rfl⟩)
      · exact Or.inl ⟨rfl, rfl⟩
      · exact Or.inr (Or.inr (hRb x y h))
    · intro x y
      constructor
      · intro h
        rcases (memD x y).mp h with h | ⟨rfl, _, rfl⟩
        · rw [collsC] at h
          rcases (hiffb x y).mp h with h | h
          · rcases (memA x y).mp h with h | ⟨rfl, _, rfl⟩
            · exact Or.inl h
            · exact Or.inr (Or.inl ⟨rfl, rfl⟩)
          · exact Or.inr (Or.inr (Or.inr h))
        · exact Or.inr (Or.inr (Or.inl ⟨rfl, rfl⟩))
      · rintro (h | ⟨rfl, rfl⟩ | ⟨rfl, rfl⟩ | h)
        · exact liftBD x y (liftSB x y h)
        · exact regIdx
        · exact regI
        · exact liftBD x y ((hiffb x y).mpr (Or.inr h))
  · exact zeroInv_of_posAt_eq posD hzc
  · intro cc hcc
    rcases List.mem_cons.mp hcc with rfl | hcc
    · exact ⟨regIdx, regI⟩
    · exact absurd hcc (List.not_mem_nil cc)
  · intro h
    exact absurd h (by simp)
  · intro _
    rw [posD, posCself, CL.ret_eq]
    simp
  · intro x hx
    rw [posD, posCne x hx]
    rcases CL.pos x with h | ⟨hne, hpos, hxC, hsub, hlast⟩
    · exact Or.inl (h.trans (posA x))
    · refine Or.inr ⟨hne, hpos, hxC, ?_, ?_⟩
      · intro cc hcc
        exact liftBD x cc (hsub cc hcc)
      · rcases hlast with rfl | ⟨g, hg, hxg⟩
        · exact ⟨index, regI, hii⟩
        · exact ⟨g, liftBD x g hg, hxg⟩

/-- Effect of running the scan loop of the frame at `index` over any
remaining candidate list `l`. -/
theorem clLoop_spec (fuel : Nat)
    (IH : ∀ (C : List EventCore) (s : List Event) (idx : Nat), idx ≤ fuel →
      s.map coreOf = C → idx < C.length → ZeroInv C s →
      CLOut C s (checkLeftFuel fuel s idx).1 idx (checkLeftFuel fuel s idx).2)
    (C : List EventCore) (index : Nat) (hidx : index < C.length) :
    ∀ (l : List Nat), (∀ j ∈ l, j ∈ colliders C index) → (∀ j ∈ l, j ≤ fuel) →
    ∀ (s : List Event), s.map coreOf = C → ZeroInv C s →
    LoopOut C s (l.foldl (clStep fuel index) s) index l := by
  intro l
  induction l with
  | nil =>
    intro _ _ s hC hz
    exact loopOut_nil C s index hC hz
  | cons i rest ihl =>
    intro hmem hfl s hC hz
    rw [List.foldl_cons]
    have h1 : LoopOut C s (clStep fuel index s i) index [i] :=
      clStep_spec fuel IH C index hidx i (hmem i (by simp)) (hfl i (by simp)) s hC hz
    have h2 : LoopOut C (clStep fuel index s i)
        (rest.foldl (clStep fuel index) (clStep fuel index s i)) index rest :=
      ihl (fun j hj => hmem j (by simp [hj])) (fun j hj => hfl j (by simp [hj]))
        (clStep fuel index s i) h1.core h1.zero
    exact h1.comp h2

/-- The full specification of `checkLeftFuel`, by induction on the
recursion budget: each call `checkLeft(events[index], index)` satisfies
`CLOut` whenever the budget covers the index, the state projects onto the
core list `C`, and the zero invariant holds. -/
theorem checkLeftFuel_spec :
    ∀ (fuel : Nat) (C : List EventCore) (s : List Event) (index : Nat),
      index ≤ fuel → s.map coreOf = C → index < C.length → ZeroInv C s →
      CLOut C s (checkLeftFuel fuel s index).1 index (checkLeftFuel fuel s index).2 := by
  intro fuel
  induction fuel with
  | zero =>
    intro C s index hf hC hidx hz
    have h0 : index = 0 := Nat.le_zero.mp hf
    subst h0
    rw [checkLeftFuel_zero_eq]
    have hcol : colliders C 0 = [] := colliders_zero C
    refine ⟨hC, fun _ => rfl, fun _ _ h => h, fun _ => Nat.le_refl _,
      fun _ _ h => Or.inl h,
      ⟨fun _ _ => False, fun _ _ h => h, fun _ _ => by simp⟩,
      hz, ?_, fun _ => Or.inl rfl, ?_⟩
    · intro c hc
      rw [hcol] at hc
      exact absurd hc (List.not_mem_nil c)
    · rw [hz 0 (List.mem_range.mpr hidx) hcol, rS_of_colliders_nil hcol]
  | succ fuel ih =>
    intro C s index hf hC hidx hz
    rw [checkLeftFuel_succ_eq, hC]
    have hloop : LoopOut C s
        ((colliders C index).foldl (clStep fuel index) s) index
        (colliders C index) :=
      clLoop_spec fuel ih C index hidx (colliders C index)
        (fun _ h => h)
        (fun j hj => by have := colliders_lt hidx hj; omega)
        s hC hz
    set s' := (colliders C index).foldl (clStep fuel index) s with hs'
    have hret : posAt s' index = rS C index := by
      by_cases hnil : colliders C index = []
      · rw [hloop.posNil hnil, rS_of_colliders_nil hnil]
        exact hz index (List.mem_range.mpr hidx) hnil
      · rw [hloop.posIdx hnil, rS_of_colliders_ne_nil hidx hnil]
    refine ⟨hloop.core, hloop.cols, hloop.mono, hloop.lenMono, hloop.newC,
      hloop.sym, hloop.zero, fun c hc => (hloop.reg c hc).1, ?_, hret⟩
    intro x
    by_cases hx : x = index
    · subst hx
      by_cases hnil : colliders C x = []
      · rw [hloop.posNil hnil]
        exact Or.inl rfl
      · exact Or.inr ⟨hnil, hret, hidx,
          fun c hc => (hloop.reg c hc).1, Or.inl rfl⟩
    · rcases hloop.pos x hx with h | ⟨hne, hpos, hxC, hsub, hlast⟩
      · exact Or.inl h
      · exact Or.inr ⟨hne, hpos, hxC, hsub, Or.inr hlast⟩

/-! ## The position-resolution pass: invariants over whole iterations -/

theorem two_le_length_of_mem_ne {a b : Nat} {l : List Nat}
    (ha : a ∈ l) (hb : b ∈ l) (hab : a ≠ b) : 2 ≤ l.length := by
  cases l with
  | nil => exact absurd ha (List.not_mem_nil a)
  | cons x xs =>
    cases xs with
    | nil =>
      rw [List.mem_singleton] at ha hb
      exact absurd (ha.trans hb.symm) hab
    | cons y ys => simp

/-- The invariant maintained between iterations of the
position-resolution loop (source lines 70–75). -/
structure Pass2Inv (C : List EventCore) (t : List Event) : Prop where
  core : t.map coreOf = C
  zero : ZeroInv C t
  sym : ∀ x y, y ∈ collsAt t x ↔ x ∈ collsAt t y
  ovl : ∀ x y, y ∈ collsAt t x → x ≠ y ∧
      collides (C.getD x default) (C.getD y default) = true ∧
      x < C.length ∧ y < C.length
  deg : ∀ x, 1 < posAt t x → 2 ≤ (collsAt t x).length

/-- Cumulative facts about a run of position-resolution iterations over
the frame indices in `l`. -/
structure Pass2Out (C : List EventCore) (t u : List Event) (l : List Nat) : Prop where
  inv : Pass2Inv C u
  mono : ∀ x y, y ∈ collsAt t x → y ∈ collsAt u x
  cols : ∀ x, colsAt u x = colsAt t x
  regAll : ∀ e ∈ l, ∀ c ∈ colliders C e, c ∈ collsAt u e

theorem pass2Step_spec (C : List EventCore) (t : List Event) (e : Nat)
    (he : e < C.length) (hinv : Pass2Inv C t) :
    Pass2Out C t (pass2Step t e) [e] := by
  have htl : t.length = C.length := by rw [← hinv.core, List.length_map]
  have CL : CLOut C t (checkLeftFuel e t e).1 e (checkLeftFuel e t e).2 :=
    checkLeftFuel_spec e C t e (Nat.le_refl e) hinv.core he hinv.zero
  set r := checkLeftFuel e t e with hr
  have hbl : r.1.length = C.length := by rw [← CL.core, List.length_map]
  -- the write events[e].position = checkLeft(events[e], e)
  set u1 := updateAt r.1 e (fun ev => { ev with position := r.2 }) with hu1
  have hCu1 : u1.map coreOf = C :=
    (map_coreOf_updateAt r.1 e
      (fun ev => { ev with position := r.2 }) (fun _ => rfl)).trans CL.core
  have collsU1 : ∀ x, collsAt u1 x = collsAt r.1 x := fun x =>
    collsAt_updateAt_of r.1 e x _ (fun _ => rfl)
  have colsU1 : ∀ x, colsAt u1 x = colsAt r.1 x := fun x =>
    colsAt_updateAt_of r.1 e x _ (fun _ => rfl)
  have posU1self : posAt u1 e = r.2 := posAt_updateAt_setPos_self (by omega)
  have posU1ne : ∀ x, x ≠ e → posAt u1 x = posAt r.1 x := fun x hx =>
    posAt_updateAt_setPos_ne r.1 e x _ hx
  have hzu1 : ZeroInv C u1 := by
    intro j hj hcj
    by_cases hje : j = e
    · subst hje
      rw [posU1self, CL.ret_eq, rS_of_colliders_nil hcj]
    · rw [posU1ne j hje]
      exact CL.zero j hj hcj
  -- facts shared by both branches of the collapse conditional
  have posNE : ∀ u2, (∀ x, x ≠ e → posAt u2 x = posAt u1 x) →
      ∀ x, x ≠ e → 1 < posAt u2 x → 2 ≤ (collsAt r.1 x).length := by
    intro u2 hpos x hx hgt
    rw [hpos x hx, posU1ne x hx] at hgt
    rcases CL.pos x with h | ⟨hne, _, hxC, hsub, hlast⟩
    · rw [h] at hgt
      exact Nat.le_trans (hinv.deg x hgt) (CL.lenMono x)
    · rcases hlast with rfl | ⟨g, hg, hxg⟩
      · exact absurd rfl hx
      · obtain ⟨c, hc⟩ := List.exists_mem_of_ne_nil _ hne
        have hcx : c < x := colliders_lt hxC hc
        exact two_le_length_of_mem_ne (hsub c hc) hg (by omega)
  have symU : ∀ x y, y ∈ collsAt r.1 x ↔ x ∈ collsAt r.1 y := by
    obtain ⟨R, hRs, hiff⟩ := CL.sym
    intro x y
    rw [hiff, hiff, hinv.sym]
    constructor
    · rintro (h | h)
      · exact Or.inl h
      · exact Or.inr (hRs x y h)
    · rintro (h | h)
      · exact Or.inl h
      · exact Or.inr (hRs y x h)
  have ovlU : ∀ x y, y ∈ collsAt r.1 x → x ≠ y ∧
      collides (C.getD x default) (C.getD y default) = true ∧
      x < C.length ∧ y < C.length := by
    intro x y h
    rcases CL.newC x y h with h | h
    · exact hinv.ovl x y h
    · exact h
  -- unfold the conditional of pass2Step
  show Pass2Out C t
    (if 1 < (eventAt u1 e).position ∧ (eventAt u1 e).collisions.length < 2 then
      updateAt u1 e (fun ev => { ev with position := 0 })
    else u1) [e]
  by_cases hcond :
      1 < (eventAt u1 e).position ∧ (eventAt u1 e).collisions.length < 2
  · rw [if_pos hcond]
    set u2 := updateAt u1 e (fun ev => { ev with position := 0 }) with hu2
    have hCu2 : u2.map coreOf = C :=
      (map_coreOf_updateAt u1 e
        (fun ev => { ev with position := 0 }) (fun _ => rfl)).trans hCu1
    have collsU2 : ∀ x, collsAt u2 x = collsAt r.1 x := fun x =>
      (collsAt_updateAt_of u1 e x
        (fun ev => { ev with position := 0 }) (fun _ => rfl)).trans (collsU1 x)
    have colsU2 : ∀ x, colsAt u2 x = colsAt r.1 x := fun x =>
      (colsAt_updateAt_of u1 e x
        (fun ev => { ev with position := 0 }) (fun _ => rfl)).trans (colsU1 x)
    have posU2self : posAt u2 e = 0 := posAt_updateAt_setPos_self (by
      have : u1.length = C.length := by rw [← hCu1, List.length_map]
      omega)
    have posU2ne : ∀ x, x ≠ e → posAt u2 x = posAt u1 x := fun x hx =>
      posAt_updateAt_setPos_ne u1 e x _ hx
    refine ⟨⟨hCu2, ?_, ?_, ?_, ?_⟩, ?_, ?_, ?_⟩
    · intro j hj hcj
      by_cases hje : j = e
      · subst hje; exact posU2self
      · rw [posU2ne j hje]
        exact hzu1 j hj hcj
    · intro x y
      rw [collsU2, collsU2]
      exact symU x y
    · intro x y h
      rw [collsU2] at h
      exact ovlU x y h
    · intro x hgt
      rw [collsU2]
      by_cases hx : x = e
      · subst hx
        rw [posU2self] at hgt
        omega
      · exact posNE u2 posU2ne x hx hgt
    · intro x y h
      rw [collsU2]
      exact CL.mono x y h
    · intro x
      rw [colsU2]
      exact CL.cols x
    · intro e2 he2 c hc
      rw [List.mem_singleton] at he2
      subst he2
      rw [collsU2]
      exact CL.regAll c hc
  · rw [if_neg hcond]
    push_neg at hcond
    refine ⟨⟨hCu1, hzu1, ?_, ?_, ?_⟩, ?_, ?_, ?_⟩
    · intro x y
      rw [collsU1, collsU1]
      exact symU x y
    · intro x y h
      rw [collsU1] at h
      exact ovlU x y h
    · intro x hgt
      rw [collsU1]
      by_cases hx : x = e
      · have hgt2 : 1 < posAt u1 e := hx ▸ hgt
        have h2 : 2 ≤ (collsAt u1 e).length := hcond hgt2
        rw [collsU1 e] at h2
        rw [hx]
        omega
      · exact posNE u1 (fun _ _ => rfl) x hx hgt
    · intro x y h
      rw [collsU1]
      exact CL.mono x y h
    · intro x
      rw [colsU1]
      exact CL.cols x
    · intro e2 he2 c hc
      rw [List.mem_singleton] at he2
      subst he2
      rw [collsU1]
      exact CL.regAll c hc

theorem pass2_fold (C : List EventCore) :
    ∀ (l : List Nat), (∀ e ∈ l, e < C.length) →
    ∀ (t : List Event), Pass2Inv C t →
    Pass2Out C t (l.foldl pass2Step t) l := by
  intro l
  induction l with
  | nil =>
    intro _ t hinv
    exact ⟨hinv, fun _ _ h => h, fun _ => rfl,
      fun e he => absurd he (List.not_mem_nil e)⟩
  | cons e rest ih =>
    intro hl t hinv
    rw [List.foldl_cons]
    have h1 : Pass2Out C t (pass2Step t e) [e] :=
      pass2Step_spec C t e (hl e (by simp)) hinv
    have h2 : Pass2Out C (pass2Step t e)
        (rest.foldl pass2Step (pass2Step t e)) rest :=
      ih (fun j hj => hl j (by simp [hj])) (pass2Step t e) h1.inv
    refine ⟨h2.inv, ?_, ?_, ?_⟩
    · intro x y h
      exact h2.mono x y (h1.mono x y h)
    · intro x
      exact (h2.cols x).trans (h1.cols x)
    · intro e2 he2 c hc
      rcases List.mem_cons.mp he2 with rfl | he2
      · exact h2.mono _ _ (h1.regAll e2 (by simp) c hc)
      · exact h2.regAll e2 he2 c hc

/-! ## The initial state of the position-resolution pass -/

theorem eventAt_mem {s : List Event} {i : Nat} (h : i < s.length) :
    eventAt s i ∈ s := by
  rw [eventAt, List.getD_eq_getElem s default h]
  exact List.getElem_mem h

theorem sorted_fields_init (input : List Event) :
    ∀ ev ∈ jsSortByDuration (input.map initEvent),
      ev.position = 0 ∧ ev.collisions = [] ∧ ev.columns = 1 := by
  intro ev hev
  have hmem : ev ∈ input.map initEvent :=
    (perm_jsSortByDuration (input.map initEvent)).mem_iff.mp hev
  obtain ⟨a, _, rfl⟩ := List.mem_map.mp hmem
  exact ⟨rfl, rfl, rfl⟩

theorem pass2Inv_init (input : List Event) :
    Pass2Inv ((jsSortByDuration (input.map initEvent)).map coreOf)
      (jsSortByDuration (input.map initEvent)) := by
  set sorted := jsSortByDuration (input.map initEvent) with hs
  have hcolls : ∀ x, collsAt sorted x = [] := by
    intro x
    by_cases hx : x < sorted.length
    · exact (sorted_fields_init input _ (eventAt_mem hx)).2.1
    · show (eventAt sorted x).collisions = []
      rw [eventAt, List.getD_eq_default _ _ (by omega)]
      rfl
  have hposz : ∀ x, posAt sorted x = 0 := by
    intro x
    by_cases hx : x < sorted.length
    · exact (sorted_fields_init input _ (eventAt_mem hx)).1
    · show (eventAt sorted x).position = 0
      rw [eventAt, List.getD_eq_default _ _ (by omega)]
      rfl
  refine ⟨rfl, ?_, ?_, ?_, ?_⟩
  · intro i _ _
    exact hposz i
  · intro x y
    rw [hcolls, hcolls]
    simp
  · intro x y h
    rw [hcolls] at h
    exact absurd h (List.not_mem_nil y)
  · intro x hgt
    rw [hposz] at hgt
    omega

/-! ## The geometry pass leaves `collisions`, `position` and cores alone -/

theorem colStep_pres (e : Nat) (st : List Event) (c : Nat) :
    (∀ x, collsAt (colStep e st c) x = collsAt st x) ∧
    (∀ x, posAt (colStep e st c) x = posAt st x) ∧
    (colStep e st c).map coreOf = st.map coreOf := by
  set f1 : Event → Event :=
    fun ev => { ev with columns := max ev.columns ((eventAt st c).position + 1) }
    with hf1
  set f2 : Event → Event :=
    fun ev => { ev with columns := (eventAt (updateAt st e f1) e).columns }
    with hf2
  have hgoal : colStep e st c = updateAt (updateAt st e f1) c f2 := rfl
  rw [hgoal]
  refine ⟨?_, ?_, ?_⟩
  · intro x
    exact (collsAt_updateAt_of _ c x f2 (fun _ => rfl)).trans
      (collsAt_updateAt_of st e x f1 (fun _ => rfl))
  · intro x
    exact (posAt_updateAt_of _ c x f2 (fun _ => rfl)).trans
      (posAt_updateAt_of st e x f1 (fun _ => rfl))
  · exact (map_coreOf_updateAt _ c f2 (fun _ => rfl)).trans
      (map_coreOf_updateAt st e f1 (fun _ => rfl))

theorem colFold_pres (e : Nat) :
    ∀ (L : List Nat) (st : List Event),
    (∀ x, collsAt (L.foldl (colStep e) st) x = collsAt st x) ∧
    (∀ x, posAt (L.foldl (colStep e) st) x = posAt st x) ∧
    (L.foldl (colStep e) st).map coreOf = st.map coreOf := by
  intro L
  induction L with
  | nil => exact fun st => ⟨fun _ => rfl, fun _ => rfl, rfl⟩
  | cons c rest ih =>
    intro st
    rw [List.foldl_cons]
    obtain ⟨h1, h2, h3⟩ := ih (colStep e st c)
    obtain ⟨g1, g2, g3⟩ := colStep_pres e st c
    exact ⟨fun x => (h1 x).trans (g1 x), fun x => (h2 x).trans (g2 x),
      h3.trans g3⟩

theorem pass3Step_pres (st : List Event) (e : Nat) :
    (∀ x, collsAt (pass3Step st e) x = collsAt st x) ∧
    (∀ x, posAt (pass3Step st e) x = posAt st x) ∧
    (pass3Step st e).map coreOf = st.map coreOf := by
  obtain ⟨h1, h2, h3⟩ := colFold_pres e ((eventAt st e).collisions.reverse) st
  set g1 : Event → Event :=
    fun ev => { ev with width := 600 / ev.columns } with hg1
  set g2 : Event → Event :=
    fun ev => { ev with left := ev.position * ev.width + 10 } with hg2
  set mid := ((eventAt st e).collisions.reverse).foldl (colStep e) st with hmid
  have hgoal : pass3Step st e = updateAt (updateAt mid e g1) e g2 := rfl
  rw [hgoal]
  refine ⟨?_, ?_, ?_⟩
  · intro x
    exact ((collsAt_updateAt_of _ e x g2 (fun _ => rfl)).trans
      (collsAt_updateAt_of mid e x g1 (fun _ => rfl))).trans (h1 x)
  · intro x
    exact ((posAt_updateAt_of _ e x g2 (fun _ => rfl)).trans
      (posAt_updateAt_of mid e x g1 (fun _ => rfl))).trans (h2 x)
  · exact ((map_coreOf_updateAt _ e g2 (fun _ => rfl)).trans
      (map_coreOf_updateAt mid e g1 (fun _ => rfl))).trans h3

theorem pass3_fold_pres :
    ∀ (l : List Nat) (st : List Event),
    (∀ x, collsAt (l.foldl pass3Step st) x = collsAt st x) ∧
    (∀ x, posAt (l.foldl pass3Step st) x = posAt st x) ∧
    (l.foldl pass3Step st).map coreOf = st.map coreOf := by
  intro l
  induction l with
  | nil => exact fun st => ⟨fun _ => rfl, fun _ => rfl, rfl⟩
  | cons e rest ih =>
    intro st
    rw [List.foldl_cons]
    obtain ⟨h1, h2, h3⟩ := ih (pass3Step st e)
    obtain ⟨g1, g2, g3⟩ := pass3Step_pres st e
    exact ⟨fun x => (h1 x).trans (g1 x), fun x => (h2 x).trans (g2 x),
      h3.trans g3⟩

/-! ## Named intermediate states of `layOutDay` -/

/-- The working array after initialization and the duration sort
(source lines 33–69). -/
def sortedOf (input : List Event) : List Event :=
  jsSortByDuration (input.map initEvent)

/-- The immutable cores of the working array. -/
def coresOf (input : List Event) : List EventCore :=
  (sortedOf input).map coreOf

/-- The working array after the position-resolution pass
(source lines 70–75). -/
def pass2Of (input : List Event) : List Event :=
  (List.range (sortedOf input).length).foldl pass2Step (sortedOf input)

theorem layOutDay_eq (input : List Event) :
    layOutDay input =
      (List.range (pass2Of input).length).foldl pass3Step (pass2Of input) := rfl

theorem pass2Of_spec (input : List Event) :
    Pass2Out (coresOf input) (sortedOf input) (pass2Of input)
      (List.range (sortedOf input).length) := by
  apply pass2_fold
  · intro e he
    rw [List.mem_range] at he
    simpa [coresOf] using he
  · exact pass2Inv_init input

theorem layOutDay_colls (input : List Event) (x : Nat) :
    collsAt (layOutDay input) x = collsAt (pass2Of input) x := by
  rw [layOutDay_eq]
  exact (pass3_fold_pres _ (pass2Of input)).1 x

theorem layOutDay_pos (input : List Event) (x : Nat) :
    posAt (layOutDay input) x = posAt (pass2Of input) x := by
  rw [layOutDay_eq]
  exact (pass3_fold_pres _ (pass2Of input)).2.1 x

theorem layOutDay_core (input : List Event) :
    (layOutDay input).map coreOf = coresOf input := by
  rw [layOutDay_eq]
  exact ((pass3_fold_pres _ (pass2Of input)).2.2).trans (pass2Of_spec input).inv.core

theorem coresOf_length (input : List Event) :
    (coresOf input).length = (sortedOf input).length := by
  rw [coresOf, List.length_map]

theorem layOutDay_length (input : List Event) :
    (layOutDay input).length = (sortedOf input).length := by
  have h := congrArg List.length (layOutDay_core input)
  rw [List.length_map] at h
  rw [h, coresOf_length]

/-! ## Columns of events that take part in no collision -/

theorem colStep_cols_ne (e : Nat) (st : List Event) (c x : Nat)
    (hx : x ≠ e) (hxc : x ≠ c) :
    colsAt (colStep e st c) x = colsAt st x := by
  set f1 : Event → Event :=
    fun ev => { ev with columns := max ev.columns ((eventAt st c).position + 1) }
    with hf1
  set f2 : Event → Event :=
    fun ev => { ev with columns := (eventAt (updateAt st e f1) e).columns }
    with hf2
  have hgoal : colStep e st c = updateAt (updateAt st e f1) c f2 := rfl
  rw [hgoal, colsAt, eventAt_updateAt_ne _ c x f2 hxc,
    eventAt_updateAt_ne st e x f1 hx]
  rfl

theorem colFold_cols_ne (e : Nat) :
    ∀ (L : List Nat) (st : List Event) (x : Nat), x ≠ e → (∀ c ∈ L, x ≠ c) →
    colsAt (L.foldl (colStep e) st) x = colsAt st x := by
  intro L
  induction L with
  | nil => intro st x _ _; rfl
  | cons c rest ih =>
    intro st x hx hc
    rw [List.foldl_cons, ih (colStep e st c) x hx (fun j hj => hc j (by simp [hj])),
      colStep_cols_ne e st c x hx (hc c (by simp))]

theorem pass3Step_cols_isolated (st : List Event) (e x : Nat)
    (hxc : x ∉ collsAt st e) (hxe : x = e → collsAt st e = []) :
    colsAt (pass3Step st e) x = colsAt st x := by
  set g1 : Event → Event :=
    fun ev => { ev with width := 600 / ev.columns } with hg1
  set g2 : Event → Event :=
    fun ev => { ev with left := ev.position * ev.width + 10 } with hg2
  set mid := ((eventAt st e).collisions.reverse).foldl (colStep e) st with hmid
  have hgoal : pass3Step st e = updateAt (updateAt mid e g1) e g2 := rfl
  have houter : ∀ t : List Event, colsAt (updateAt (updateAt t e g1) e g2) x = colsAt t x := by
    intro t
    exact (colsAt_updateAt_of _ e x g2 (fun _ => rfl)).trans
      (colsAt_updateAt_of t e x g1 (fun _ => rfl))
  rw [hgoal, houter]
  by_cases hx : x = e
  · have hnil : collsAt st e = [] := hxe hx
    rw [hmid]
    show colsAt (((eventAt st e).collisions.reverse).foldl (colStep e) st) x = colsAt st x
    have : (eventAt st e).collisions = [] := hnil
    rw [this]
    rfl
  · rw [hmid]
    exact colFold_cols_ne e _ st x hx
      (fun c hc => fun hxc2 => hxc (by
        rw [List.mem_reverse] at hc
        rw [hxc2]
        exact hc))

theorem pass3_fold_cols_isolated :
    ∀ (l : List Nat) (st : List Event) (x : Nat),
    (∀ f, x ∉ collsAt st f) → collsAt st x = [] →
    colsAt (l.foldl pass3Step st) x = colsAt st x := by
  intro l
  induction l with
  | nil => intro st x _ _; rfl
  | cons e rest ih =>
    intro st x hnf hnil
    rw [List.foldl_cons]
    have hpres := pass3Step_pres st e
    have h1 : colsAt (pass3Step st e) x = colsAt st x :=
      pass3Step_cols_isolated st e x (hnf e) (fun hx => hx ▸ hnil)
    rw [ih (pass3Step st e) x (fun f => (hpres.1 f) ▸ hnf f)
      ((hpres.1 x) ▸ hnil), h1]

/-! ## The recursion budget is irrelevant once it covers the index -/

theorem checkLeftFuel_length :
    ∀ (fuel : Nat) (s : List Event) (index : Nat),
    (checkLeftFuel fuel s index).1.length = s.length := by
  intro fuel
  induction fuel with
  | zero => intro s index; rfl
  | succ fuel ih =>
    intro s index
    rw [checkLeftFuel_succ_eq]
    show ((colliders (s.map coreOf) index).foldl (clStep fuel index) s).length = s.length
    generalize (colliders (s.map coreOf) index) = L
    induction L generalizing s with
    | nil => rfl
    | cons i rest ihL =>
      rw [List.foldl_cons]
      rw [ihL (clStep fuel index s i)]
      show (updateAt (updateAt (checkLeftFuel fuel
        (updateAt s index (fun ev => registerCollision ev i)) i).1 index
        (fun ev => { ev with position :=
          (checkLeftFuel fuel (updateAt s index (fun ev2 => registerCollision ev2 i)) i).2 + 1 })) i
        (fun ev => registerCollision ev index)).length = s.length
      rw [updateAt_length, updateAt_length, ih, updateAt_length]

theorem checkLeftFuel_zero_index (fuel : Nat) (s : List Event) :
    checkLeftFuel fuel s 0 = (s, posAt s 0) := by
  cases fuel with
  | zero => rfl
  | succ fuel =>
    rw [checkLeftFuel_succ_eq, colliders_zero]
    rfl

theorem foldl_congr_len (n : Nat) (f g : List Event → Nat → List Event) :
    ∀ (L : List Nat) (st : List Event), st.length = n →
    (∀ (st2 : List Event) (i : Nat), st2.length = n → i ∈ L →
      f st2 i = g st2 i ∧ (f st2 i).length = n) →
    L.foldl f st = L.foldl g st := by
  intro L
  induction L with
  | nil => intro st _ _; rfl
  | cons i rest ih =>
    intro st hst hfg
    rw [List.foldl_cons, List.foldl_cons]
    have h := hfg st i hst (by simp)
    rw [← h.1]
    exact ih (f st i) h.2 (fun st2 j hj hmem => hfg st2 j hj (by simp [hmem]))

theorem checkLeftFuel_fuel_irrel :
    ∀ (index f1 f2 : Nat) (s : List Event), index ≤ f1 → index ≤ f2 →
    index < s.length → checkLeftFuel f1 s index = checkLeftFuel f2 s index := by
  intro index
  induction index using Nat.strong_induction_on with
  | _ index ih =>
    intro f1 f2 s h1 h2 hs
    by_cases h0 : index = 0
    · subst h0
      rw [checkLeftFuel_zero_index, checkLeftFuel_zero_index]
    · cases f1 with
      | zero => omega
      | succ g1 =>
        cases f2 with
        | zero => omega
        | succ g2 =>
          rw [checkLeftFuel_succ_eq, checkLeftFuel_succ_eq]
          have hfold : (colliders (s.map coreOf) index).foldl (clStep g1 index) s =
              (colliders (s.map coreOf) index).foldl (clStep g2 index) s := by
            apply foldl_congr_len s.length _ _ _ s rfl
            intro st2 i hlen hi
            have hii : i < index := colliders_lt (by simpa using hs) hi
            have hcl : checkLeftFuel g1
                (updateAt st2 index (fun ev => registerCollision ev i)) i =
                checkLeftFuel g2
                (updateAt st2 index (fun ev => registerCollision ev i)) i := by
              apply ih i hii g1 g2 _ (by omega) (by omega)
              rw [updateAt_length, hlen]
              omega
            constructor
            · show updateAt (updateAt (checkLeftFuel g1
                (updateAt st2 index (fun ev => registerCollision ev i)) i).1 index
                (fun ev => { ev with position := (checkLeftFuel g1
                  (updateAt st2 index (fun ev2 => registerCollision ev2 i)) i).2 + 1 })) i
                (fun ev => registerCollision ev index) =
                updateAt (updateAt (checkLeftFuel g2
                (updateAt st2 index (fun ev => registerCollision ev i)) i).1 index
                (fun ev => { ev with position := (checkLeftFuel g2
                  (updateAt st2 index (fun ev2 => registerCollision ev2 i)) i).2 + 1 })) i
                (fun ev => registerCollision ev index)
              rw [hcl]
            · show (updateAt (updateAt (checkLeftFuel g1
                (updateAt st2 index (fun ev => registerCollision ev i)) i).1 index
                (fun ev => { ev with position := (checkLeftFuel g1
                  (updateAt st2 index (fun ev2 => registerCollision ev2 i)) i).2 + 1 })) i
                (fun ev => registerCollision ev index)).length = s.length
              rw [updateAt_length, updateAt_length, checkLeftFuel_length,
                updateAt_length, hlen]
          rw [hfold]

/-! ## Shared consequences used by the claim theorems -/

theorem collides_eq_true_iff {a b : EventCore} :
    collides a b = true ↔ (a.start < b.«end» ∧ b.start < a.«end») := by
  simp only [collides, Bool.and_eq_true, decide_eq_true_eq]

theorem eventAt_core_final (input : List Event) (x : Nat) :
    coreOf (eventAt (layOutDay input) x) = (coresOf input).getD x default := by
  rw [coreOf_eventAt, layOutDay_core]

theorem layOutDay_isolated (input : List Event) (k : Nat)
    (hk : k < (layOutDay input).length)
    (hnil : collsAt (layOutDay input) k = []) :
    posAt (layOutDay input) k = 0 ∧ colsAt (layOutDay input) k = 1 := by
  have P2 := pass2Of_spec input
  have hk2 : k < (sortedOf input).length := by
    rw [← layOutDay_length input]; exact hk
  have hkC : k < (coresOf input).length := by rw [coresOf_length]; exact hk2
  have hnil2 : collsAt (pass2Of input) k = [] := by
    rw [← layOutDay_colls]; exact hnil
  have hnf : ∀ f, k ∉ collsAt (pass2Of input) f := by
    intro f hf
    have h := (P2.inv.sym f k).mp hf
    rw [hnil2] at h
    exact absurd h (List.not_mem_nil f)
  have hcolliders : colliders (coresOf input) k = [] := by
    apply List.eq_nil_iff_forall_not_mem.mpr
    intro c hc
    have h := P2.regAll k (List.mem_range.mpr hk2) c hc
    rw [hnil2] at h
    exact absurd h (List.not_mem_nil c)
  constructor
  · rw [layOutDay_pos]
    exact P2.inv.zero k (List.mem_range.mpr hkC) hcolliders
  · rw [layOutDay_eq]
    have h1 : colsAt ((List.range (pass2Of input).length).foldl pass3Step
        (pass2Of input)) k = colsAt (pass2Of input) k :=
      pass3_fold_cols_isolated _ _ k hnf hnil2
    rw [h1, P2.cols k]
    exact (sorted_fields_init input _ (eventAt_mem hk2)).2.2

theorem pairwise_core_transfer {s t : List Event}
    (h : s.map coreOf = t.map coreOf) {Q : EventCore → EventCore → Prop}
    (hp : List.Pairwise (fun a b => Q (coreOf a) (coreOf b)) t) :
    List.Pairwise (fun a b => Q (coreOf a) (coreOf b)) s := by
  have h1 : List.Pairwise Q (t.map coreOf) := List.pairwise_map.mpr hp
  rw [← h] at h1
  exact List.pairwise_map.mp h1

theorem filter_map_id_core (p : EventCore → Bool) (s : List Event) :
    (s.filter (fun ev => p (coreOf ev))).map Event.id =
      ((s.map coreOf).filter p).map EventCore.id := by
  rw [List.filter_map, List.map_map]
  rfl

theorem map_coreOf_initEvent (l : List Event) :
    (l.map initEvent).map coreOf = l.map coreOf := by
  induction l with
  | nil => rfl
  | cons a t ih =>
    simp only [List.map_cons, ih]
    rfl

theorem map_initEvent_core_eq : ∀ {l1 l2 : List Event},
    l1.map coreOf = l2.map coreOf → l1.map initEvent = l2.map initEvent := by
  intro l1
  induction l1 with
  | nil =>
    intro l2 h
    cases l2 with
    | nil => rfl
    | cons b u => simp at h
  | cons a t ih =>
    intro l2 h
    cases l2 with
    | nil => simp at h
    | cons b u =>
      simp only [List.map_cons, List.cons.injEq] at h ⊢
      obtain ⟨h1, h2⟩ := h
      refine ⟨?_, ih h2⟩
      have hid : a.id = b.id := congrArg EventCore.id h1
      have hst : a.start = b.start := congrArg EventCore.start h1
      have hen : a.«end» = b.«end» := congrArg EventCore.«end» h1
      simp only [initEvent]
      rw [hid, hst, hen]

/-! ## Concrete inputs used by the claim theorems and witnesses -/

/-- Two fully overlapping events (scenario 2 of the specification). -/
def twoFullOverlap : List Event :=
  [{ id := 1, start := 0, «end» := 60 }, { id := 2, start := 0, «end» := 60 }]

/-- The same two events with stale annotation fields left over from an
earlier run; the cores (`id`, `start`, `end`) agree with
`twoFullOverlap`. -/
def twoFullOverlapDirty : List Event :=
  [{ id := 1, start := 0, «end» := 60, left := 99, top := 4, width := 7,
     duration := 3, overlap := 5, position := 7, collisions := [5], columns := 9 },
   { id := 2, start := 0, «end» := 60, width := 3, position := 2 }]

/-- Two adjacent (touching, not overlapping) events (scenario 3 of the
specification). -/
def twoAdjacent : List Event :=
  [{ id := 1, start := 0, «end» := 30 }, { id := 2, start := 30, «end» := 60 }]

/-- Two events of distinct durations, given in ascending-duration order. -/
def twoDistinctDur : List Event :=
  [{ id := 1, start := 0, «end» := 30 }, { id := 2, start := 0, «end» := 60 }]

/-- Four events, already in descending-duration order: event `0` overlaps
all others, events `1` and `2` overlap each other, and event `3` overlaps
only event `0`. -/
def chainFour : List Event :=
  [{ id := 10, start := 0, «end» := 100 }, { id := 11, start := 0, «end» := 50 },
   { id := 12, start := 10, «end» := 55 }, { id := 13, start := 60, «end» := 99 }]

/-- Three mutually overlapping events in descending-duration order, with
all annotation fields at their initialized values: a reachable state of
the position-resolution pass. -/
def threeNested : List Event :=
  [{ id := 1, start := 0, «end» := 100, left := 10, top := 0, width := 200,
     duration := 100, overlap := 0, position := 0, collisions := [], columns := 1 },
   { id := 2, start := 0, «end» := 90, left := 10, top := 0, width := 200,
     duration := 90, overlap := 0, position := 0, collisions := [], columns := 1 },
   { id := 3, start := 0, «end» := 80, left := 10, top := 0, width := 200,
     duration := 80, overlap := 0, position := 0, collisions := [], columns := 1 }]

/-! ## The claims -/

/-- Claim C1: on the input consisting of exactly the two events
`{id:1,start:0,end:60}` and `{id:2,start:0,end:60}`, `layOutDay`
registers each event in the other's collisions set, assigns column 0 to
one event and column 1 to the other, sets `columns = 2` on both,
`width = 300` on both, and `left = 10` and `left = 310` respectively. -/
theorem layOutDay_two_full_overlap :
    collsAt (layOutDay twoFullOverlap) 0 = [1] ∧
    collsAt (layOutDay twoFullOverlap) 1 = [0] ∧
    posAt (layOutDay twoFullOverlap) 0 = 0 ∧
    posAt (layOutDay twoFullOverlap) 1 = 1 ∧
    colsAt (layOutDay twoFullOverlap) 0 = 2 ∧
    colsAt (layOutDay twoFullOverlap) 1 = 2 ∧
    (eventAt (layOutDay twoFullOverlap) 0).width = 300 ∧
    (eventAt (layOutDay twoFullOverlap) 1).width = 300 ∧
    (eventAt (layOutDay twoFullOverlap) 0).left = 10 ∧
    (eventAt (layOutDay twoFullOverlap) 1).left = 310 := by
  decide

/-- Claim C2: for every input list of events with `start < end` and unique
ids, after `layOutDay` returns, every event whose collisions set has fewer
than 2 entries has column (`position`) at most 1. -/
theorem layOutDay_degenerate_collapse (l : List Event)
    (hs : ∀ ev ∈ l, ev.start < ev.«end») (hid : (l.map Event.id).Nodup)
    (k : Nat) (hk : k < (layOutDay l).length)
    (hlt : (eventAt (layOutDay l) k).collisions.length < 2) :
    (eventAt (layOutDay l) k).position ≤ 1 := by
  have P2 := pass2Of_spec l
  by_contra hgt
  push_neg at hgt
  have hgt2 : 1 < posAt (pass2Of l) k := by
    rw [← layOutDay_pos]
    exact hgt
  have hlen := P2.inv.deg k hgt2
  have hlt2 : (collsAt (pass2Of l) k).length < 2 := by
    rw [← layOutDay_colls]
    exact hlt
  omega

theorem layOutDay_degenerate_collapse_witness :
    ((eventAt (layOutDay twoFullOverlap) 0).collisions.length < 2) ∧
    (eventAt (layOutDay twoFullOverlap) 0).position ≤ 1 :=
  ⟨by decide,
   layOutDay_degenerate_collapse twoFullOverlap (by decide) (by decide) 0
     (by decide) (by decide)⟩

/-- Claim C3 (failing input): on `chainFour`, all four events are in one
connected collision component (`1` and `3` are both registered in event
`0`'s collisions), yet event `0` ends with `columns = 2` while its direct
collision partner `1` ends with `columns = 3`; the full `columns` vector
is `[2, 3, 3, 2]`.  The geometry pass (source lines 84–88) propagates the
*running* maximum and is later overwritten by the frame of event `3`
(whose own maximum is `2`), so the component does not converge to one
`columns` value, contradicting the stated invariant and the code's own
comment that matching collisions are set "to same number of columns". -/
theorem layOutDay_component_columns_failing_input :
    1 ∈ (eventAt (layOutDay chainFour) 0).collisions ∧
    3 ∈ (eventAt (layOutDay chainFour) 0).collisions ∧
    (eventAt (layOutDay chainFour) 0).columns = 2 ∧
    (eventAt (layOutDay chainFour) 1).columns = 3 ∧
    (layOutDay chainFour).map Event.columns = [2, 3, 3, 2] := by
  decide

/-- Claim C4: for every input list of events with `start < end` and unique
ids, after `layOutDay` returns, collision membership is symmetric: for
every pair of (sorted-sequence) indices `i` and `j`, `j` is in event
`i`'s collisions set if and only if `i` is in event `j`'s collisions
set. -/
theorem layOutDay_collisions_symm (l : List Event)
    (hs : ∀ ev ∈ l, ev.start < ev.«end») (hid : (l.map Event.id).Nodup)
    (i j : Nat) :
    j ∈ (eventAt (layOutDay l) i).collisions ↔
      i ∈ (eventAt (layOutDay l) j).collisions := by
  have P2 := pass2Of_spec l
  show j ∈ collsAt (layOutDay l) i ↔ i ∈ collsAt (layOutDay l) j
  rw [layOutDay_colls, layOutDay_colls]
  exact P2.inv.sym i j

theorem layOutDay_collisions_symm_witness :
    1 ∈ (eventAt (layOutDay twoFullOverlap) 0).collisions ↔
      0 ∈ (eventAt (layOutDay twoFullOverlap) 1).collisions :=
  layOutDay_collisions_symm twoFullOverlap (by decide) (by decide) 0 1

/-- Claim C5: for every input list of events with `start < end` and unique
ids, after `layOutDay` returns, `j` appears in event `k`'s collisions set
only if the two intervals properly overlap (`k.start < j.end` and
`k.end > j.start`, strict); in particular two merely adjacent events
register no collision with each other. -/
theorem layOutDay_collisions_only_overlap (l : List Event)
    (hs : ∀ ev ∈ l, ev.start < ev.«end») (hid : (l.map Event.id).Nodup)
    (k j : Nat) (hj : j ∈ (eventAt (layOutDay l) k).collisions) :
    (eventAt (layOutDay l) k).start < (eventAt (layOutDay l) j).«end» ∧
    (eventAt (layOutDay l) k).«end» > (eventAt (layOutDay l) j).start := by
  have P2 := pass2Of_spec l
  have hj2 : j ∈ collsAt (pass2Of l) k := by
    rw [← layOutDay_colls]
    exact hj
  obtain ⟨hne, hcol, hkC, hjC⟩ := P2.inv.ovl k j hj2
  rw [collides_eq_true_iff] at hcol
  have hck := eventAt_core_final l k
  have hcj := eventAt_core_final l j
  have h1 : (eventAt (layOutDay l) k).start =
      ((coresOf l).getD k default).start := congrArg EventCore.start hck
  have h2 : (eventAt (layOutDay l) j).«end» =
      ((coresOf l).getD j default).«end» := congrArg EventCore.«end» hcj
  have h3 : (eventAt (layOutDay l) j).start =
      ((coresOf l).getD j default).start := congrArg EventCore.start hcj
  have h4 : (eventAt (layOutDay l) k).«end» =
      ((coresOf l).getD k default).«end» := congrArg EventCore.«end» hck
  constructor
  · rw [h1, h2]
    exact hcol.1
  · show (eventAt (layOutDay l) j).start < (eventAt (layOutDay l) k).«end»
    rw [h3, h4]
    exact hcol.2

theorem layOutDay_collisions_only_overlap_witness :
    (1 ∈ (eventAt (layOutDay twoFullOverlap) 0).collisions) ∧
    ((eventAt (layOutDay twoFullOverlap) 0).start <
      (eventAt (layOutDay twoFullOverlap) 1).«end» ∧
    (eventAt (layOutDay twoFullOverlap) 0).«end» >
      (eventAt (layOutDay twoFullOverlap) 1).start) :=
  ⟨by decide,
   layOutDay_collisions_only_overlap twoFullOverlap (by decide) (by decide) 0 1
     (by decide)⟩

/-- Claim C6: for every input list of events with `start < end` and unique
ids, after `layOutDay` returns, every event whose collisions set is empty
has column (`position`) equal to 0 and `columns` equal to 1. -/
theorem layOutDay_no_collision_isolation (l : List Event)
    (hs : ∀ ev ∈ l, ev.start < ev.«end») (hid : (l.map Event.id).Nodup)
    (k : Nat) (hk : k < (layOutDay l).length)
    (hnil : (eventAt (layOutDay l) k).collisions = []) :
    (eventAt (layOutDay l) k).position = 0 ∧
      (eventAt (layOutDay l) k).columns = 1 :=
  layOutDay_isolated l k hk hnil

theorem layOutDay_no_collision_isolation_witness :
    ((eventAt (layOutDay twoAdjacent) 0).collisions = []) ∧
    ((eventAt (layOutDay twoAdjacent) 0).position = 0 ∧
      (eventAt (layOutDay twoAdjacent) 0).columns = 1) :=
  ⟨by decide,
   layOutDay_no_collision_isolation twoAdjacent (by decide) (by decide) 0
     (by decide) (by decide)⟩

/-- Claim C7: for every input list of events with `start < end` and unique
ids, the list returned by `layOutDay` is ordered by duration
(`end - start`) descending, events of equal duration keep their relative
order from the original input sequence (stable sort), and this
duration-sorted order is the return order (the returned events are, by
id, a permutation of the input). -/
theorem layOutDay_sorted_by_duration_stable (l : List Event)
    (hs : ∀ ev ∈ l, ev.start < ev.«end») (hid : (l.map Event.id).Nodup) :
    List.Pairwise
      (fun a b : Event => b.«end» - b.start ≤ a.«end» - a.start) (layOutDay l) ∧
    (∀ d : Int,
      ((layOutDay l).filter (fun ev => decide (ev.«end» - ev.start = d))).map Event.id =
        (l.filter (fun ev => decide (ev.«end» - ev.start = d))).map Event.id) ∧
    ((layOutDay l).map Event.id).Perm (l.map Event.id) := by
  have hcore : (layOutDay l).map coreOf = (sortedOf l).map coreOf :=
    layOutDay_core l
  refine ⟨?_, ?_, ?_⟩
  · exact pairwise_core_transfer hcore
      (Q := fun c d => d.«end» - d.start ≤ c.«end» - c.start)
      (pairwise_jsSortByDuration (l.map initEvent))
  · intro d
    set p : EventCore → Bool := fun c => decide (c.«end» - c.start = d) with hp
    have hkey : ∀ x y : Event, (fun ev => p (coreOf ev)) x = true →
        x.«end» - x.start < y.«end» - y.start →
        (fun ev => p (coreOf ev)) y = false := by
      intro x y hx hlt
      simp only [hp, decide_eq_true_eq] at hx
      have hx2 : x.«end» - x.start = d := hx
      simp only [hp, decide_eq_false_iff_not]
      show ¬ (y.«end» - y.start = d)
      omega
    show ((layOutDay l).filter (fun ev => p (coreOf ev))).map Event.id =
      (l.filter (fun ev => p (coreOf ev))).map Event.id
    calc ((layOutDay l).filter (fun ev => p (coreOf ev))).map Event.id
        = (((layOutDay l).map coreOf).filter p).map EventCore.id :=
          filter_map_id_core p _
      _ = (((sortedOf l).map coreOf).filter p).map EventCore.id := by rw [hcore]
      _ = ((sortedOf l).filter (fun ev => p (coreOf ev))).map Event.id :=
          (filter_map_id_core p _).symm
      _ = ((l.map initEvent).filter (fun ev => p (coreOf ev))).map Event.id := by
          rw [show sortedOf l = jsSortByDuration (l.map initEvent) from rfl,
            filter_jsSortByDuration _ hkey]
      _ = (((l.map initEvent).map coreOf).filter p).map EventCore.id :=
          filter_map_id_core p _
      _ = ((l.map coreOf).filter p).map EventCore.id := by
          rw [map_coreOf_initEvent]
      _ = (l.filter (fun ev => p (coreOf ev))).map Event.id :=
          (filter_map_id_core p _).symm
  · have h1 : (layOutDay l).map Event.id =
        ((layOutDay l).map coreOf).map EventCore.id := by
      rw [List.map_map]
      rfl
    rw [h1, layOutDay_core]
    have hperm : (coresOf l).Perm ((l.map initEvent).map coreOf) :=
      (perm_jsSortByDuration (l.map initEvent)).map coreOf
    have hperm2 := hperm.map EventCore.id
    rw [map_coreOf_initEvent] at hperm2
    have h2 : (l.map coreOf).map EventCore.id = l.map Event.id := by
      rw [List.map_map]
      rfl
    rw [h2] at hperm2
    exact hperm2

theorem layOutDay_sorted_by_duration_stable_witness :
    List.Pairwise
      (fun a b : Event => b.«end» - b.start ≤ a.«end» - a.start)
      (layOutDay twoDistinctDur) ∧
    ((layOutDay twoDistinctDur).filter
        (fun ev => decide (ev.«end» - ev.start = 30))).map Event.id =
      (twoDistinctDur.filter
        (fun ev => decide (ev.«end» - ev.start = 30))).map Event.id ∧
    ((layOutDay twoDistinctDur).map Event.id).Perm
      (twoDistinctDur.map Event.id) :=
  ⟨(layOutDay_sorted_by_duration_stable twoDistinctDur (by decide) (by decide)).1,
   (layOutDay_sorted_by_duration_stable twoDistinctDur (by decide) (by decide)).2.1 30,
   (layOutDay_sorted_by_duration_stable twoDistinctDur (by decide) (by decide)).2.2⟩

/-- Claim C8: during position resolution, when the event at sequence
index `index` collides with more than one earlier candidate in the
duration-sorted scan order, the value returned by the recursive
resolution for it equals the value recursively resolved for the *last*
colliding candidate in scan order plus one (later candidates overwrite
earlier ones; no maximum is taken).  `ZeroInv` is the state invariant
holding whenever `checkLeft` runs (events whose scan meets no candidate
still carry their initialized `position = 0`). -/
theorem checkLeft_last_collider_wins (s : List Event) (index : Nat)
    (hz : ZeroInv (s.map coreOf) s) (hlen : index < s.length)
    (h2 : 2 ≤ (colliders (s.map coreOf) index).length) :
    (checkLeftFuel index s index).2 =
      (checkLeftFuel ((colliders (s.map coreOf) index).getLastD 0) s
        ((colliders (s.map coreOf) index).getLastD 0)).2 + 1 := by
  set C := s.map coreOf with hC
  have hidxC : index < C.length := by rw [hC, List.length_map]; exact hlen
  have hne : colliders C index ≠ [] := by
    intro h
    rw [h] at h2
    simp at h2
  have hmem : (colliders C index).getLastD 0 ∈ colliders C index :=
    getLastD_mem 0 _ hne
  have hlastC : (colliders C index).getLastD 0 < C.length :=
    scanStop_lt_length hidxC hmem
  have CL1 := checkLeftFuel_spec index C s index (Nat.le_refl index) hC.symm hidxC hz
  have CL2 := checkLeftFuel_spec ((colliders C index).getLastD 0) C s
    ((colliders C index).getLastD 0) (Nat.le_refl _) hC.symm hlastC hz
  rw [CL1.ret_eq, CL2.ret_eq, rS_of_colliders_ne_nil hidxC hne]

theorem checkLeft_last_collider_wins_witness :
    (2 ≤ (colliders (threeNested.map coreOf) 2).length) ∧
    (checkLeftFuel 2 threeNested 2).2 =
      (checkLeftFuel ((colliders (threeNested.map coreOf) 2).getLastD 0)
        threeNested ((colliders (threeNested.map coreOf) 2).getLastD 0)).2 + 1 :=
  ⟨by decide,
   checkLeft_last_collider_wins threeNested 2 (by decide) (by decide) (by decide)⟩

/-- Claim C9 (counterexample): `layOutDay` is *not* independent of other
program state.  `checkLeft` scans the module-level `events` binding, not
the argument of `layOutDay`; the two models below run the identical
source code on the identical input under two module states (binding
aliasing the argument versus binding holding an empty array) and produce
different outputs, so repeated invocations on equal-by-value input need
not produce identical output. -/
theorem layOutDay_global_state_counterexample :
    layOutDay twoFullOverlap ≠ layOutDayEmptyGlobal twoFullOverlap := by
  decide

/-- Claim C9 (amended): with the module-level `events` binding aliasing
the laid-out array (the configuration the algorithm is designed for),
`layOutDay` is deterministic and its output depends only on the `id`,
`start` and `end` values of the input events: all annotation fields are
re-initialized, so two invocations on inputs that agree on those core
fields produce identical outputs. -/
theorem layOutDay_deterministic_on_cores (l1 l2 : List Event)
    (h : l1.map coreOf = l2.map coreOf) : layOutDay l1 = layOutDay l2 := by
  have hs : sortedOf l1 = sortedOf l2 := by
    unfold sortedOf
    rw [map_initEvent_core_eq h]
  have hp : pass2Of l1 = pass2Of l2 := by
    unfold pass2Of
    rw [hs]
  rw [layOutDay_eq, layOutDay_eq, hp]

theorem layOutDay_deterministic_on_cores_witness :
    layOutDay twoFullOverlap = layOutDay twoFullOverlapDirty :=
  layOutDay_deterministic_on_cores twoFullOverlap twoFullOverlapDirty (by decide)

/-- Claim C10: the recursive collision search terminates: every colliding
candidate processed by the scan of `checkLeft(events[index], index)` lies
strictly below the index where the scan stops, and that stop index never
exceeds the scanned event's own index (the first occurrence of its id is
at or before its position, trivially so for unique ids), so the recursion
strictly decreases the index and is well-founded; consequently the
explicit recursion budget is irrelevant as soon as it covers the index,
and the position-resolution pass computes a total function. -/
theorem checkLeft_recursion_wellfounded :
    (∀ (s : List Event) (index : Nat), index < s.length →
      ∀ i ∈ colliders (s.map coreOf) index,
        i < scanStop (s.map coreOf) index ∧
          scanStop (s.map coreOf) index ≤ index) ∧
    (∀ (fuel : Nat) (s : List Event) (index : Nat), index ≤ fuel →
      index < s.length →
      checkLeftFuel fuel s index = checkLeftFuel index s index) := by
  constructor
  · intro s index hlen i hi
    have hlenC : index < (s.map coreOf).length := by
      rw [List.length_map]
      exact hlen
    exact ⟨colliders_lt_scanStop hi, scanStop_le_self _ index hlenC⟩
  · intro fuel s index hf hlen
    exact checkLeftFuel_fuel_irrel index fuel index s hf (Nat.le_refl index) hlen

theorem checkLeft_recursion_wellfounded_witness :
    (0 < scanStop (threeNested.map coreOf) 2 ∧
      scanStop (threeNested.map coreOf) 2 ≤ 2) ∧
    checkLeftFuel 5 threeNested 2 = checkLeftFuel 2 threeNested 2 :=
  ⟨checkLeft_recursion_wellfounded.1 threeNested 2 (by decide) 0 (by decide),
   checkLeft_recursion_wellfounded.2 5 threeNested 2 (by decide) (by decide)⟩

